import Mathlib

/-!
# linecounter: per-file counting, SharedStorage and the scan/count pipeline

A shallow embedding of `linecounter.cpp`.

* `countLinesInFile` is embedded over an explicit model of the `std::ifstream`
  operations it uses (`open` with `ate`, `tellg`, `seekg`, byte iteration). An
  opened file is described by two observations that the code makes separately:
  the offset reported after opening at the end, and the bytes that reading
  from the start yields.
* `SharedStorage` is embedded as a list of paths (the `std::deque`), with `put`
  and `take` built from `push_back`, `empty`, `front` and `pop_front`.
* `LineCounter` is embedded as a step function on a state holding `storage`,
  `line_count` (a 64-bit unsigned value, arithmetic modulo `2 ^ 64`),
  `scanning_finished`, and one program counter per thread.
* A run of `countLines` is the step function folded over a schedule, the list
  of threads in the order in which they perform their atomic steps. Properties
  of all runs are proved from three invariants: the flag is set exactly when
  the scanner has returned (`FlagAgrees`), `line_count` is the total less what
  is pending (`Conserved`), and what is untaken only loses paths at its head
  (`untaken`).
-/

namespace LineCounter

/-! ## Bytes and streams -/

/-- A `char` of the file, as a byte value. -/
abbrev Byte := Fin 256

/-- The byte `'\n'`. -/
def newline : Byte := 10

/-- Number of values representable in `std::uint64_t`. -/
def UINT64_SIZE : Nat := 2 ^ 64

/-- What a successful open of a path lets the stream observe. For a file stored
on disk the end offset is the number of bytes; a file whose content is produced
on reading can report an end offset of 0 and still yield bytes, or report a
non-zero end offset and yield none. -/
structure OpenedFile where
  /-- the offset of the end of the file, as the operating system reports it -/
  endOffset : Nat
  /-- the bytes that reading from offset 0 to the end of input yields -/
  bytes : List Byte
deriving DecidableEq, Repr

/-- A file stored on disk with the given content: its end offset is its
length. -/
def OpenedFile.stored (bytes : List Byte) : OpenedFile :=
  { endOffset := bytes.length, bytes := bytes }

/-- What a path holds at the moment it is opened: `none` when the open fails
(deleted, unreadable, ...), `some file` when it succeeds. -/
abbrev FileData := Option OpenedFile

/-- The part of a `std::ifstream` that `countLinesInFile` observes. -/
structure IfStream where
  /-- bytes of the underlying file; empty when no file is attached -/
  content : List Byte
  /-- whether the file buffer is attached to an open file -/
  attached : Bool
  /-- the get position -/
  pos : Nat
  /-- the stream's `failbit` -/
  failbit : Bool
deriving DecidableEq, Repr

/-- `std::ifstream input(path, std::ifstream::ate)`: on success the get
position is the end offset of the file; on failure `failbit` is set. -/
def IfStream.openAte (file : FileData) : IfStream :=
  match file with
  | none => { content := [], attached := false, pos := 0, failbit := true }
  | some opened =>
    { content := opened.bytes, attached := true, pos := opened.endOffset, failbit := false }

/-- `input.tellg()`: the get position, or `-1` when the stream has failed. -/
def IfStream.tellg (s : IfStream) : Int :=
  if s.failbit then -1 else (s.pos : Int)

/-- `input.seekg(off)`: moves the get position; does nothing on a failed stream. -/
def IfStream.seekg (s : IfStream) (off : Nat) : IfStream :=
  if s.failbit then s else { s with pos := off }

/-- The bytes that `std::istreambuf_iterator<char>(input)` yields up to the end
iterator: the file from the get position on, nothing when no file is attached. -/
def IfStream.bytesFromPos (s : IfStream) : List Byte :=
  if s.attached then s.content.drop s.pos else []

/-- `std::count(first, last, value)`: one pass over the range, incrementing a
counter at each element equal to `value`. -/
def stdCount : List Byte → Byte → Nat
  | [], _ => 0
  | b :: rest, value => (if b = value then 1 else 0) + stdCount rest value

/-- `countLinesInFile(path)`, given what opening `path` yields. The result is a
`std::uint64_t`. -/
def countLinesInFile (file : FileData) : Nat :=
  let input := IfStream.openAte file
  if input.tellg = 0 then
    0
  else
    let input := input.seekg 0
    (stdCount input.bytesFromPos newline + 1) % UINT64_SIZE

/-! ## SharedStorage -/

/-- A `std::filesystem::path`. -/
abbrev Path := String

/-- `std::deque::push_back`. -/
def dequePushBack (d : List Path) (p : Path) : List Path := d ++ [p]

/-- `std::deque::empty`. -/
def dequeEmpty (d : List Path) : Bool :=
  match d with
  | [] => true
  | _ :: _ => false

/-- `std::deque::front`, defined on a non-empty deque only. -/
def dequeFront (d : List Path) : Option Path :=
  match d with
  | [] => none
  | p :: _ => some p

/-- `std::deque::pop_front`. -/
def dequePopFront (d : List Path) : List Path :=
  match d with
  | [] => []
  | _ :: rest => rest

/-- The data of `class SharedStorage`. The mutex is not represented: every
member function holds it for its whole body, so each call is one atomic step. -/
structure SharedStorage where
  files_to_process : List Path
deriving DecidableEq, Repr

/-- A default-constructed `SharedStorage`. -/
def SharedStorage.empty : SharedStorage := { files_to_process := [] }

/-- `SharedStorage::put`. -/
def SharedStorage.put (s : SharedStorage) (path : Path) : SharedStorage :=
  { files_to_process := dequePushBack s.files_to_process path }

/-- `SharedStorage::take`: the returned optional and the storage afterwards. -/
def SharedStorage.take (s : SharedStorage) : Option Path × SharedStorage :=
  if !dequeEmpty s.files_to_process then
    let file := dequeFront s.files_to_process
    (file, { files_to_process := dequePopFront s.files_to_process })
  else
    (none, s)

/-- `put` called once for each path of the list, in order. -/
def SharedStorage.putAll (s : SharedStorage) (paths : List Path) : SharedStorage :=
  paths.foldl SharedStorage.put s

/-- `take` called `n` times in a row: the returned optionals in call order and
the storage afterwards. -/
def SharedStorage.takeMany : Nat → SharedStorage → List (Option Path) × SharedStorage
  | 0, s => ([], s)
  | n + 1, s =>
    let r := s.take
    let rest := SharedStorage.takeMany n r.2
    (r.1 :: rest.1, rest.2)

/-- One call on a `SharedStorage`. -/
inductive StorageOp where
  | put (path : Path)
  | take
deriving DecidableEq, Repr

/-- A `SharedStorage` together with the history of the calls made on it. -/
structure Logged where
  storage : SharedStorage
  /-- arguments of all `put` calls so far, in call order -/
  putLog : List Path
  /-- values returned by the `take` calls that returned a path, in call order -/
  takeLog : List Path
deriving DecidableEq, Repr

/-- An empty storage on which nothing has been called. -/
def Logged.init : Logged := { storage := SharedStorage.empty, putLog := [], takeLog := [] }

/-- Perform one call and record it. -/
def Logged.apply (l : Logged) (op : StorageOp) : Logged :=
  match op with
  | .put path =>
    { storage := l.storage.put path, putLog := l.putLog ++ [path], takeLog := l.takeLog }
  | .take =>
    match l.storage.take with
    | (some file, st) => { storage := st, putLog := l.putLog, takeLog := l.takeLog ++ [file] }
    | (none, st) => { storage := st, putLog := l.putLog, takeLog := l.takeLog }

/-- The calls of all threads in the order in which they acquire the mutex. -/
def Logged.run (ops : List StorageOp) : Logged :=
  ops.foldl Logged.apply Logged.init

/-! ## Directory traversal -/

/-- A node of the directory tree below the root. -/
inductive Entry where
  | regular (path : Path)
  | directory (path : Path) (children : List Entry)
  | other (path : Path)

/-- What the loop body of `scanDirectoryTree` sees of a `directory_entry`. -/
structure DirEntry where
  path : Path
  is_regular_file : Bool
deriving DecidableEq, Repr

mutual
/-- The entries `recursive_directory_iterator` yields for one node: the node
itself, then (for a directory) everything below it. -/
def Entry.walk : Entry → List DirEntry
  | .regular path => [{ path := path, is_regular_file := true }]
  | .directory path children =>
    { path := path, is_regular_file := false } :: walkAll children
  | .other path => [{ path := path, is_regular_file := false }]
/-- The entries `recursive_directory_iterator(root)` yields, `contents` being
what the directory `root` holds. -/
def walkAll : List Entry → List DirEntry
  | [] => []
  | e :: rest => e.walk ++ walkAll rest
end

/-- The paths `scanDirectoryTree` passes to `put`, in order. -/
def discovered (contents : List Entry) : List Path :=
  ((walkAll contents).filter (fun e => e.is_regular_file)).map (fun e => e.path)

/-! ## LineCounter -/

/-- What opening each path yields at the time a worker counts it. -/
abbrev FileSystem := Path → FileData

/-- The data members of `class LineCounter`. -/
structure Members where
  storage : SharedStorage
  /-- `std::atomic_uint64_t` -/
  line_count : Nat
  /-- `std::atomic_bool` -/
  scanning_finished : Bool
deriving DecidableEq, Repr

/-- A newly constructed `LineCounter`. -/
def Members.fresh : Members :=
  { storage := SharedStorage.empty, line_count := 0, scanning_finished := false }

/-- `LineCounter::reset`. -/
def reset (m : Members) : Members :=
  { storage := m.storage, line_count := 0, scanning_finished := false }

/-- Where the thread running `scanDirectoryTree` stands. -/
inductive ScannerPc where
  /-- in the `for` loop, with these entries still to come from the iterator -/
  | iterating (rest : List DirEntry)
  /-- returned, after `scanning_finished = true` -/
  | finished
deriving DecidableEq, Repr

/-- Where a thread running `runWorker` stands. -/
inductive WorkerPc where
  /-- about to call `storage.take()` -/
  | atTake
  /-- `take` returned this path; about to do `line_count += countLinesInFile(*file)` -/
  | atAdd (file : Path)
  /-- `take` returned `nullopt`; about to read `scanning_finished` -/
  | atFlag
  /-- left the loop -/
  | exited
deriving DecidableEq, Repr

/-- One atomic step of `scanDirectoryTree`: one loop iteration (a `put` when the
entry is a regular file), or the final write of `scanning_finished`. -/
def scanDirectoryTreeStep (m : Members) (pc : ScannerPc) : Members × ScannerPc :=
  match pc with
  | .iterating (entry :: rest) =>
    if entry.is_regular_file then
      ({ m with storage := m.storage.put entry.path }, .iterating rest)
    else
      (m, .iterating rest)
  | .iterating [] => ({ m with scanning_finished := true }, .finished)
  | .finished => (m, .finished)

/-- One atomic step of `runWorker`: the `take`, the atomic add, or the read of
`scanning_finished`. -/
def runWorkerStep (fs : FileSystem) (m : Members) (pc : WorkerPc) : Members × WorkerPc :=
  match pc with
  | .atTake =>
    match m.storage.take with
    | (some file, st) => ({ m with storage := st }, .atAdd file)
    | (none, st) => ({ m with storage := st }, .atFlag)
  | .atAdd file =>
    ({ m with line_count := (m.line_count + countLinesInFile (fs file)) % UINT64_SIZE }, .atTake)
  | .atFlag => if m.scanning_finished then (m, .exited) else (m, .atTake)
  | .exited => (m, .exited)

/-- The threads of one `countLines` call. -/
inductive Tid where
  | skanner
  | worker (i : Nat)
deriving DecidableEq, Repr

/-- The object and the threads of one `countLines` call. -/
structure State where
  members : Members
  skanner : ScannerPc
  workers : List WorkerPc
deriving DecidableEq, Repr

/-- The thread `t` performs its next atomic step. A thread that has returned, or
a worker index that does not exist, leaves the state as it is. -/
def step (fs : FileSystem) (s : State) (t : Tid) : State :=
  match t with
  | .skanner =>
    let r := scanDirectoryTreeStep s.members s.skanner
    { members := r.1, skanner := r.2, workers := s.workers }
  | .worker i =>
    match s.workers.get? i with
    | none => s
    | some pc =>
      let r := runWorkerStep fs s.members pc
      { members := r.1, skanner := s.skanner, workers := s.workers.set i r.2 }

/-- The state of `countLines(root)` once `reset` has run and the threads exist:
`n` is the value of `std::thread::hardware_concurrency()`, `contents` what the
directory `root` holds. -/
def start (m : Members) (n : Nat) (contents : List Entry) : State :=
  { members := reset m
    skanner := .iterating (walkAll contents)
    workers := List.replicate n .atTake }

/-- Run the threads in the order given by the schedule. -/
def run (fs : FileSystem) (s : State) (schedule : List Tid) : State :=
  schedule.foldl (step fs) s

/-- Both joins of `countLines` can return: every thread has finished. -/
def joined (s : State) : Bool :=
  (s.skanner == .finished) && s.workers.all (fun pc => pc == .exited)

/-- `LineCounter::countLines` under a schedule: the returned `line_count` when
the schedule brings every thread to its end, `none` when it does not. -/
def countLines (fs : FileSystem) (m : Members) (n : Nat) (contents : List Entry)
    (schedule : List Tid) : Option Nat :=
  let s := run fs (start m n contents) schedule
  if joined s then some s.members.line_count else none

/-- The sum of `countLinesInFile` over the given paths. -/
def sumOfCounts (fs : FileSystem) (paths : List Path) : Nat :=
  (paths.map (fun p => countLinesInFile (fs p))).sum

/-- The history invariant of a logged storage: what was put is what was taken
followed by what is still queued. -/
def Logged.Balanced (l : Logged) : Prop :=
  l.putLog = l.takeLog ++ l.storage.files_to_process

/-! ## Sample inputs -/

/-- The bytes of `"a\nb\nc"`. -/
def bytesNoTrailing : List Byte := [97, 10, 98, 10, 99]

/-- The bytes of `"a\nb\nc\n"`. -/
def bytesTrailing : List Byte := [97, 10, 98, 10, 99, 10]

/-- The bytes of `"hi\n\nyo"`. -/
def bytesBlankLine : List Byte := [104, 105, 10, 10, 121, 111]

/-- A file system in which no path can be opened. -/
def nothingOpens : FileSystem := fun _ => none

/-- A file system with the readable files `root/a.txt` (`"a\nb\nc"`, counted
as 3) and `root/sub/b.txt` (`"hi\n\nyo"`, counted as 3). -/
def sampleFs : FileSystem := fun p =>
  if p = "root/a.txt" then some (OpenedFile.stored bytesNoTrailing)
  else if p = "root/sub/b.txt" then some (OpenedFile.stored bytesBlankLine)
  else none

/-- A regular file as a kernel parameter file presents itself: the end offset
is 0, and reading yields the six bytes `"Linux\n"`. -/
def zeroOffsetTextFile : OpenedFile :=
  { endOffset := 0, bytes := [76, 105, 110, 117, 120, 10] }

/-- A regular file as a process command-line file presents itself: the end
offset is 0, and reading yields the three bytes `"sh\0"`. -/
def zeroOffsetCommandFile : OpenedFile :=
  { endOffset := 0, bytes := [115, 104, 0] }

/-- A regular file as an unset device attribute presents itself: the end offset
is 4096, and reading yields no byte. -/
def pageOffsetEmptyFile : OpenedFile :=
  { endOffset := 4096, bytes := [] }

/-- A root directory holding the single regular file `root/a.txt`. -/
def oneFileTree : List Entry := [.regular "root/a.txt"]

/-- A root directory holding `root/a.txt` and a sub-directory with `b.txt`. -/
def twoFileTree : List Entry :=
  [.regular "root/a.txt", .directory "root/sub" [.regular "root/sub/b.txt"]]

/-- One worker: it calls `take` on the still empty queue, then the scanner puts
`root/a.txt` and sets `scanning_finished`, then the worker reads the flag. -/
def earlyTakeSchedule : List Tid :=
  [.worker 0, .skanner, .skanner, .worker 0]

/-- Two workers on `twoFileTree`: worker 0 calls `take` on the empty queue; the
scanner puts `root/a.txt`; worker 1 takes and counts it and calls `take` again
on the empty queue; the scanner passes `root/sub`, puts `root/sub/b.txt` and
sets `scanning_finished`; both workers read the flag. -/
def staleTakeSchedule : List Tid :=
  [.worker 0, .skanner, .worker 1, .worker 1, .worker 1,
   .skanner, .skanner, .skanner, .worker 0, .worker 1]

/-! ## Observations on runs -/

/-- The entries still to come from the iterator; none once the scanner has
returned. -/
def ScannerPc.rest : ScannerPc → List DirEntry
  | .iterating rest => rest
  | .finished => []

/-- The paths of the regular files among the entries, in order. -/
def regularPaths (entries : List DirEntry) : List Path :=
  (entries.filter (fun e => e.is_regular_file)).map (fun e => e.path)

/-- Whether the next step of `t` in `s` is the scanner's write of
`scanning_finished`. -/
def writesFlag (s : State) (t : Tid) : Bool :=
  match t, s.skanner with
  | .skanner, .iterating [] => true
  | _, _ => false

/-- Whether the next step of `t` in `s` is a `put`. -/
def putsPath (s : State) (t : Tid) : Bool :=
  match t, s.skanner with
  | .skanner, .iterating (entry :: _) => entry.is_regular_file
  | _, _ => false

/-- Whether the next step of `t` in `s` is a `take` that returns `nullopt`. -/
def takesNothing (s : State) (t : Tid) : Bool :=
  match t with
  | .skanner => false
  | .worker i =>
    (s.workers.get? i == some .atTake) && dequeEmpty s.members.storage.files_to_process

/-- Number of steps of the schedule, run from `s`, at which `p` holds. -/
def countSteps (fs : FileSystem) (p : State → Tid → Bool) (s : State) : List Tid → Nat
  | [] => 0
  | t :: rest => (if p s t then 1 else 0) + countSteps fs p (step fs s t) rest

/-- Every `take` of the schedule, run from `s`, that returns `nullopt` happens
when `scanning_finished` is already true. -/
def flagFirst (fs : FileSystem) (s : State) : List Tid → Bool
  | [] => true
  | t :: rest =>
    (!takesNothing s t || s.members.scanning_finished) && flagFirst fs (step fs s t) rest

/-- What a worker still has to add to `line_count`: the count of the path it
holds between its `take` and its add. -/
def WorkerPc.pending (fs : FileSystem) : WorkerPc → Nat
  | .atAdd file => countLinesInFile (fs file)
  | _ => 0

/-- The counts not yet added to `line_count`: of the queued paths, of the paths
held by workers, and of the regular files the scanner has yet to put. -/
def pendingSum (fs : FileSystem) (s : State) : Nat :=
  sumOfCounts fs s.members.storage.files_to_process
    + (s.workers.map (WorkerPc.pending fs)).sum
    + sumOfCounts fs (regularPaths s.skanner.rest)

/-- The paths no worker has taken yet: the queue, then the regular files the
scanner has yet to put. -/
def untaken (s : State) : List Path :=
  s.members.storage.files_to_process ++ regularPaths s.skanner.rest

/-- The scanner has returned and the queue is empty. -/
def drained (s : State) : Prop :=
  s.skanner = .finished ∧ s.members.storage.files_to_process = []

/-- Some worker has seen `take` return `nullopt`: it is about to read the flag
or has left its loop. -/
def someWorkerSawEmpty (s : State) : Prop :=
  ∃ pc ∈ s.workers, pc = WorkerPc.atFlag ∨ pc = WorkerPc.exited

/-- The flag is set exactly when the scanner has returned. -/
def FlagAgrees (s : State) : Prop :=
  s.members.scanning_finished = true ↔ s.skanner = .finished

/-- The counts still to be added by the workers that hold a path. -/
def pendingWorkers (fs : FileSystem) (workers : List WorkerPc) : Nat :=
  (workers.map (WorkerPc.pending fs)).sum

/-- With `total` the sum of the counts of all paths queued at the start or
discovered by the scanner: `line_count` is `total` less what is still pending,
modulo `2 ^ 64`. -/
def Conserved (fs : FileSystem) (total : Nat) (s : State) : Prop :=
  pendingSum fs s ≤ total
    ∧ s.members.line_count = (total - pendingSum fs s) % UINT64_SIZE

/-- The data members as a `countLines` call under the given schedule leaves
them. -/
def membersAfter (fs : FileSystem) (m : Members) (n : Nat) (contents : List Entry)
    (schedule : List Tid) : Members :=
  (run fs (start m n contents) schedule).members

/-- A root directory without any regular file: an empty directory, and a
directory holding an empty directory and a socket. -/
def noFileTree : List Entry :=
  [.directory "root/empty" [],
   .directory "root/d" [.directory "root/d/e" [], .other "root/d/sock"]]

/-- Two workers on `oneFileTree`: the scanner puts `root/a.txt` and sets the
flag; worker 0 takes and counts the file, sees the empty queue and the flag;
worker 1 sees the empty queue and the flag. -/
def scannerFirstSchedule : List Tid :=
  [.skanner, .skanner, .worker 0, .worker 0, .worker 0, .worker 0, .worker 1, .worker 1]

/-- One worker, a call on an object whose queue still holds one path: the
scanner puts `root/a.txt` and sets the flag; the worker takes and counts two
paths, sees the empty queue and the flag. -/
def secondCallSchedule : List Tid :=
  [.skanner, .skanner, .worker 0, .worker 0, .worker 0, .worker 0, .worker 0, .worker 0]

/-- Two workers on `twoFileTree`: worker 1 takes `root/a.txt` while the scanner
is still walking; no `take` returns `nullopt` before the flag is set. -/
def overlappingSchedule : List Tid :=
  [.skanner, .worker 1, .skanner, .worker 1, .skanner, .worker 0, .skanner,
   .worker 1, .worker 0, .worker 0, .worker 1, .worker 0]

/-- Two workers on `noFileTree`: worker 0 polls the empty queue twice while the
scanner walks, then both workers see the flag. -/
def pollingSchedule : List Tid :=
  [.worker 0, .skanner, .worker 0, .worker 0, .skanner, .skanner, .skanner, .skanner,
   .worker 0, .worker 0, .worker 1, .worker 1]

theorem stdCount_eq_count (bytes : List Byte) (value : Byte) :
    stdCount bytes value = bytes.count value := by
  induction bytes with
  | nil => rfl
  | cons b rest ih =>
    by_cases h : b = value
    · simp [stdCount, h, ih, Nat.add_comm]
    · have h2 : ¬ ((b == value) = true) := by simpa using h
      simp [stdCount, h, ih, List.count_cons, h2]

theorem count_succ_lt_of_size (bytes : List Byte) (hsize : bytes.length < 2 ^ 63) :
    bytes.count newline + 1 < UINT64_SIZE := by
  have h1 : bytes.count newline ≤ bytes.length := List.count_le_length newline bytes
  have h2 : (2 : Nat) ^ 63 + 1 ≤ 2 ^ 64 := by norm_num
  unfold UINT64_SIZE
  omega

theorem countLinesInFile_zero_offset (file : OpenedFile) (hoff : file.endOffset = 0) :
    countLinesInFile (some file) = 0 := by
  simp [countLinesInFile, IfStream.openAte, IfStream.tellg, hoff]

theorem countLinesInFile_opened (file : OpenedFile) (hoff : file.endOffset ≠ 0) :
    countLinesInFile (some file) = (file.bytes.count newline + 1) % UINT64_SIZE := by
  have hpos : ¬ ((file.endOffset : Int) = 0) := by exact_mod_cast hoff
  simp [countLinesInFile, IfStream.openAte, IfStream.tellg, IfStream.seekg,
    IfStream.bytesFromPos, stdCount_eq_count, hpos]

theorem countLinesInFile_of_size (file : OpenedFile) (hoff : file.endOffset ≠ 0)
    (hsize : file.bytes.length < 2 ^ 63) :
    countLinesInFile (some file) = file.bytes.count newline + 1 := by
  rw [countLinesInFile_opened file hoff]
  exact Nat.mod_eq_of_lt (count_succ_lt_of_size file.bytes hsize)

theorem countLinesInFile_failed_open : countLinesInFile none = 1 := by
  decide

/-! ## Per-file counting: claims -/

/-- C2, as stated, fails: a successfully opened file that reports end offset 0
and yields the six bytes `"Linux\n"` has non-empty content with one newline,
and `countLinesInFile` returns 0, not 2. -/
theorem countLinesInFile_zero_offset_counterexample :
    zeroOffsetTextFile.bytes ≠ []
      ∧ zeroOffsetTextFile.bytes.count newline + 1 = 2
      ∧ countLinesInFile (some zeroOffsetTextFile) = 0
      ∧ countLinesInFile (some zeroOffsetTextFile)
          ≠ zeroOffsetTextFile.bytes.count newline + 1 := by
  decide

/-- C2, amended: for every non-empty byte sequence that is the content of a
successfully opened file whose end offset is not 0 (its size fitting the signed
64-bit stream offset), `countLinesInFile` returns the number of bytes equal to
`'\n'`, plus one. -/
theorem countLinesInFile_nonempty (file : OpenedFile) (_hne : file.bytes ≠ [])
    (hoff : file.endOffset ≠ 0) (hsize : file.bytes.length < 2 ^ 63) :
    countLinesInFile (some file) = file.bytes.count newline + 1 :=
  countLinesInFile_of_size file hoff hsize

/-- Witness for amended C2: the stored file of the six bytes `"hi\n\nyo"` has
end offset 6, holds two newlines and counts as 3. -/
theorem countLinesInFile_nonempty_witness :
    (OpenedFile.stored bytesBlankLine).bytes ≠ []
      ∧ (OpenedFile.stored bytesBlankLine).endOffset ≠ 0
      ∧ (OpenedFile.stored bytesBlankLine).bytes.length < 2 ^ 63
      ∧ countLinesInFile (some (OpenedFile.stored bytesBlankLine))
          = (OpenedFile.stored bytesBlankLine).bytes.count newline + 1
      ∧ (OpenedFile.stored bytesBlankLine).bytes.count newline + 1 = 3 :=
  ⟨by decide, by decide, by decide,
    countLinesInFile_nonempty (OpenedFile.stored bytesBlankLine) (by decide) (by decide)
      (by decide),
    by decide⟩

/-- C3, as stated, fails: a successfully opened file that yields zero bytes and
reports end offset 4096 has empty content, and `countLinesInFile` returns 1,
not 0. -/
theorem countLinesInFile_empty_read_counterexample :
    pageOffsetEmptyFile.bytes = []
      ∧ countLinesInFile (some pageOffsetEmptyFile) = 1
      ∧ countLinesInFile (some pageOffsetEmptyFile) ≠ 0 := by
  decide

/-- C3, amended: for a successfully opened file whose end offset is 0, as for
every stored file of zero bytes, `countLinesInFile` returns 0. -/
theorem countLinesInFile_empty (file : OpenedFile) (hoff : file.endOffset = 0) :
    countLinesInFile (some file) = 0 :=
  countLinesInFile_zero_offset file hoff

/-- Witness for amended C3: the stored file of zero bytes has end offset 0 and
counts as 0. -/
theorem countLinesInFile_empty_witness :
    (OpenedFile.stored []).bytes = []
      ∧ (OpenedFile.stored []).endOffset = 0
      ∧ countLinesInFile (some (OpenedFile.stored [])) = 0 :=
  ⟨rfl, rfl, countLinesInFile_empty (OpenedFile.stored []) rfl⟩

/-- C4, as stated, fails: the stored file consisting of exactly one `'\n'` ends
in `'\n'` and holds one newline, and `countLinesInFile` returns 2, not 1. -/
theorem countLinesInFile_single_newline_counterexample :
    [newline].getLast? = some newline
      ∧ countLinesInFile (some (OpenedFile.stored [newline])) = 2
      ∧ countLinesInFile (some (OpenedFile.stored [newline])) ≠ [newline].count newline := by
  decide

/-- C4, amended: for every file content whose last byte is `'\n'` and that
contains `k` bytes equal to `'\n'` in total, in a successfully opened file whose
end offset is not 0, `countLinesInFile` returns `k + 1`. -/
theorem countLinesInFile_trailing_newline (file : OpenedFile)
    (_hlast : file.bytes.getLast? = some newline) (hoff : file.endOffset ≠ 0)
    (hsize : file.bytes.length < 2 ^ 63) :
    countLinesInFile (some file) = file.bytes.count newline + 1 :=
  countLinesInFile_of_size file hoff hsize

/-- Witness for amended C4: the stored file `"a\nb\nc\n"` ends in `'\n'`, has
end offset 6, holds three newlines and counts as 4. -/
theorem countLinesInFile_trailing_newline_witness :
    (OpenedFile.stored bytesTrailing).bytes.getLast? = some newline
      ∧ (OpenedFile.stored bytesTrailing).endOffset ≠ 0
      ∧ (OpenedFile.stored bytesTrailing).bytes.length < 2 ^ 63
      ∧ countLinesInFile (some (OpenedFile.stored bytesTrailing))
          = (OpenedFile.stored bytesTrailing).bytes.count newline + 1
      ∧ (OpenedFile.stored bytesTrailing).bytes.count newline + 1 = 4 :=
  ⟨by decide, by decide, by decide,
    countLinesInFile_trailing_newline (OpenedFile.stored bytesTrailing) (by decide)
      (by decide) (by decide),
    by decide⟩

/-- C5, as stated, fails: a successfully opened file that reports end offset 0
and yields the three bytes `"sh\0"` has non-empty content without a trailing
`'\n'` and with no newline at all, and `countLinesInFile` returns 0, not 1. -/
theorem countLinesInFile_no_trailing_zero_offset_counterexample :
    zeroOffsetCommandFile.bytes ≠ []
      ∧ zeroOffsetCommandFile.bytes.getLast? ≠ some newline
      ∧ zeroOffsetCommandFile.bytes.count newline + 1 = 1
      ∧ countLinesInFile (some zeroOffsetCommandFile) = 0
      ∧ countLinesInFile (some zeroOffsetCommandFile)
          ≠ zeroOffsetCommandFile.bytes.count newline + 1 := by
  decide

/-- C5, amended: for every non-empty file content whose last byte is not `'\n'`
and that contains `k` bytes equal to `'\n'`, in a successfully opened file whose
end offset is not 0, `countLinesInFile` returns `k + 1`. -/
theorem countLinesInFile_no_trailing_newline (file : OpenedFile) (hne : file.bytes ≠ [])
    (_hlast : file.bytes.getLast hne ≠ newline) (hoff : file.endOffset ≠ 0)
    (hsize : file.bytes.length < 2 ^ 63) :
    countLinesInFile (some file) = file.bytes.count newline + 1 :=
  countLinesInFile_of_size file hoff hsize

/-- Witness for amended C5: the stored file `"a\nb\nc"` does not end in `'\n'`,
has end offset 5, holds two newlines and counts as 3. -/
theorem countLinesInFile_no_trailing_newline_witness :
    (OpenedFile.stored bytesNoTrailing).endOffset ≠ 0
      ∧ (OpenedFile.stored bytesNoTrailing).bytes.length < 2 ^ 63
      ∧ countLinesInFile (some (OpenedFile.stored bytesNoTrailing))
          = (OpenedFile.stored bytesNoTrailing).bytes.count newline + 1
      ∧ (OpenedFile.stored bytesNoTrailing).bytes.count newline + 1 = 3 :=
  ⟨by decide, by decide,
    countLinesInFile_no_trailing_newline (OpenedFile.stored bytesNoTrailing) (by decide)
      (by decide) (by decide) (by decide),
    by decide⟩

/-- C6, as stated, fails: for a path whose open fails, `countLinesInFile` yields
1, and the worker's add for that path changes `line_count` from 0 to 1. -/
theorem runWorker_failed_open_counterexample :
    nothingOpens "root/gone.txt" = none
      ∧ countLinesInFile (nothingOpens "root/gone.txt") = 1
      ∧ (runWorkerStep nothingOpens Members.fresh (.atAdd "root/gone.txt")).1.line_count = 1
      ∧ (runWorkerStep nothingOpens Members.fresh (.atAdd "root/gone.txt")).1.line_count
          ≠ Members.fresh.line_count := by
  decide

/-- C6, amended: for a path whose open fails, `countLinesInFile` yields 1, and
the worker's add for that path replaces `line_count` by `line_count + 1` modulo
`2 ^ 64`, changes nothing else, and returns the worker to its `take`. -/
theorem runWorker_failed_open_adds_one (fs : FileSystem) (m : Members) (file : Path)
    (hfail : fs file = none) :
    countLinesInFile (fs file) = 1
      ∧ runWorkerStep fs m (.atAdd file)
          = ({ storage := m.storage
               line_count := (m.line_count + 1) % UINT64_SIZE
               scanning_finished := m.scanning_finished }, .atTake) := by
  simp [runWorkerStep, hfail, countLinesInFile_failed_open]

/-- Witness for amended C6: on a new object, the add for an unopenable path
sets `line_count` to 1. -/
theorem runWorker_failed_open_adds_one_witness :
    nothingOpens "root/gone.txt" = none
      ∧ countLinesInFile (nothingOpens "root/gone.txt") = 1
      ∧ runWorkerStep nothingOpens Members.fresh (.atAdd "root/gone.txt")
          = ({ storage := Members.fresh.storage
               line_count := (Members.fresh.line_count + 1) % UINT64_SIZE
               scanning_finished := Members.fresh.scanning_finished }, .atTake) :=
  ⟨rfl, runWorker_failed_open_adds_one nothingOpens Members.fresh "root/gone.txt" rfl⟩

/-! ## SharedStorage: lemmas -/

theorem put_files (q : List Path) (p : Path) :
    (SharedStorage.put { files_to_process := q } p) = { files_to_process := q ++ [p] } := rfl

theorem take_cons (h : Path) (t : List Path) :
    SharedStorage.take { files_to_process := h :: t } = (some h, { files_to_process := t }) := rfl

theorem take_nil :
    SharedStorage.take { files_to_process := [] } = (none, { files_to_process := [] }) := rfl

theorem putAll_files (paths q : List Path) :
    SharedStorage.putAll { files_to_process := q } paths = { files_to_process := q ++ paths } := by
  induction paths generalizing q with
  | nil => simp [SharedStorage.putAll]
  | cons p rest ih =>
    have h := ih (q ++ [p])
    simp only [SharedStorage.putAll, List.foldl_cons] at h ⊢
    rw [put_files, h]
    simp

theorem takeMany_succ (n : Nat) (s : SharedStorage) :
    SharedStorage.takeMany (n + 1) s
      = (s.take.1 :: (SharedStorage.takeMany n s.take.2).1,
          (SharedStorage.takeMany n s.take.2).2) := rfl

theorem takeMany_drains (paths : List Path) :
    SharedStorage.takeMany (paths.length + 1) { files_to_process := paths }
      = (paths.map some ++ [none], SharedStorage.empty) := by
  induction paths with
  | nil => rfl
  | cons p rest ih =>
    rw [List.length_cons, takeMany_succ, take_cons]
    simp only
    rw [ih]
    rfl

theorem Logged.apply_balanced (l : Logged) (op : StorageOp) (h : l.Balanced) :
    (l.apply op).Balanced := by
  obtain ⟨⟨q⟩, puts, takes⟩ := l
  simp only [Logged.Balanced] at h
  cases op with
  | put path =>
    simp [Logged.Balanced, Logged.apply, SharedStorage.put, dequePushBack, h]
  | take =>
    cases q with
    | nil => simpa [Logged.Balanced, Logged.apply, take_nil] using h
    | cons p rest => simpa [Logged.Balanced, Logged.apply, take_cons] using h

theorem Logged.foldl_balanced (ops : List StorageOp) (l : Logged) (h : l.Balanced) :
    (ops.foldl Logged.apply l).Balanced := by
  induction ops generalizing l with
  | nil => exact h
  | cons op rest ih => exact ih (l.apply op) (Logged.apply_balanced l op h)

theorem Logged.run_balanced (ops : List StorageOp) : (Logged.run ops).Balanced :=
  Logged.foldl_balanced ops Logged.init rfl

/-! ## SharedStorage: claims -/

/-- C8: in every state reached from an empty `SharedStorage` by any sequence of
atomic `put` and `take` calls, the multiset of paths put so far equals the
multiset of paths queued plus the multiset of paths returned by `take`; so
each path has been returned or is queued exactly as often as it was put. -/
theorem storage_put_eq_queued_add_taken (ops : List StorageOp) :
    Multiset.ofList (Logged.run ops).putLog
        = Multiset.ofList (Logged.run ops).storage.files_to_process
          + Multiset.ofList (Logged.run ops).takeLog
      ∧ ∀ p : Path, (Logged.run ops).takeLog.count p
          + (Logged.run ops).storage.files_to_process.count p
            = (Logged.run ops).putLog.count p := by
  have h := Logged.run_balanced ops
  simp only [Logged.Balanced] at h
  constructor
  · rw [h, ← Multiset.coe_add, add_comm]
  · intro p
    rw [h, List.count_append]

/-- C9: on queue contents `q`, `put p` yields `q ++ [p]`; `take` on `h :: t`
returns `h` and leaves `t`; `take` on the empty queue returns `nullopt` and
leaves the queue empty. -/
theorem sharedStorage_put_take_postconditions :
    (∀ (q : List Path) (p : Path),
        SharedStorage.put { files_to_process := q } p = { files_to_process := q ++ [p] })
      ∧ (∀ (h : Path) (t : List Path),
        SharedStorage.take { files_to_process := h :: t } = (some h, { files_to_process := t }))
      ∧ SharedStorage.take { files_to_process := [] } = (none, { files_to_process := [] }) :=
  ⟨put_files, take_cons, take_nil⟩

/-- C10: putting `p1 .. pn` in that order into an empty `SharedStorage` and then
calling `take` `n + 1` times returns `p1, .., pn` in that order and then
`nullopt`, and leaves the storage empty. -/
theorem sharedStorage_fifo (paths : List Path) :
    SharedStorage.takeMany (paths.length + 1) (SharedStorage.putAll SharedStorage.empty paths)
      = (paths.map some ++ [none], SharedStorage.empty) := by
  have h := putAll_files paths []
  simp only [List.nil_append] at h
  show SharedStorage.takeMany (paths.length + 1)
      (SharedStorage.putAll { files_to_process := [] } paths) = _
  rw [h]
  exact takeMany_drains paths

/-! ## Pipeline: claims -/

/-- C1 fails on the code: with one worker and the single file `root/a.txt`
(counted as 3), the schedule in which the worker's `take` on the empty queue
precedes the scanner's `put` and its read of `scanning_finished` follows the
scanner's write ends with every thread finished, and `countLines` returns 0. -/
theorem countLines_early_take_returns_zero :
    countLines sampleFs Members.fresh 1 oneFileTree earlyTakeSchedule = some 0
      ∧ sumOfCounts sampleFs (discovered oneFileTree) = 3 := by
  decide

/-- C7 fails on the code: with two workers on `twoFileTree`, the schedule
`staleTakeSchedule` ends with the scanner finished and both workers out of
their loop while `root/sub/b.txt` is still queued. -/
theorem workers_exit_with_path_queued :
    joined (run sampleFs (start Members.fresh 2 twoFileTree) staleTakeSchedule) = true
      ∧ (run sampleFs (start Members.fresh 2 twoFileTree) staleTakeSchedule).members.storage
          = { files_to_process := ["root/sub/b.txt"] }
      ∧ discovered twoFileTree = ["root/a.txt", "root/sub/b.txt"] := by
  decide

/-! ## Pipeline: single steps -/

theorem run_nil (fs : FileSystem) (s : State) : run fs s [] = s := rfl

theorem run_cons (fs : FileSystem) (s : State) (t : Tid) (rest : List Tid) :
    run fs s (t :: rest) = run fs (step fs s t) rest := rfl

theorem run_append (fs : FileSystem) (s : State) (a b : List Tid) :
    run fs s (a ++ b) = run fs (run fs s a) b := by
  simp [run, List.foldl_append]

theorem runWorkerStep_atTake_nil (fs : FileSystem) (m : Members)
    (h : m.storage.files_to_process = []) :
    runWorkerStep fs m .atTake = (m, .atFlag) := by
  obtain ⟨⟨q⟩, lc, fl⟩ := m
  simp only at h
  subst h
  rfl

theorem runWorkerStep_atTake_cons (fs : FileSystem) (m : Members) (p : Path) (q : List Path)
    (h : m.storage.files_to_process = p :: q) :
    runWorkerStep fs m .atTake
      = ({ storage := { files_to_process := q }
           line_count := m.line_count
           scanning_finished := m.scanning_finished }, .atAdd p) := by
  obtain ⟨⟨q0⟩, lc, fl⟩ := m
  simp only at h
  subst h
  rfl

theorem runWorkerStep_flag (fs : FileSystem) (m : Members) (pc : WorkerPc) :
    (runWorkerStep fs m pc).1.scanning_finished = m.scanning_finished := by
  cases pc with
  | atTake =>
    cases hq : m.storage.files_to_process with
    | nil => rw [runWorkerStep_atTake_nil fs m hq]
    | cons p q => rw [runWorkerStep_atTake_cons fs m p q hq]
  | atAdd file => rfl
  | atFlag =>
    cases hf : m.scanning_finished <;> simp [runWorkerStep, hf]
  | exited => rfl

theorem step_worker_none (fs : FileSystem) (s : State) (i : Nat)
    (h : s.workers.get? i = none) : step fs s (.worker i) = s := by
  simp only [step, h]

theorem step_worker_some (fs : FileSystem) (s : State) (i : Nat) (pc : WorkerPc)
    (h : s.workers.get? i = some pc) :
    step fs s (.worker i)
      = { members := (runWorkerStep fs s.members pc).1
          skanner := s.skanner
          workers := s.workers.set i (runWorkerStep fs s.members pc).2 } := by
  simp only [step, h]

theorem step_worker_flag (fs : FileSystem) (s : State) (i : Nat) :
    (step fs s (.worker i)).members.scanning_finished = s.members.scanning_finished := by
  cases h : s.workers.get? i with
  | none => rw [step_worker_none fs s i h]
  | some pc =>
    rw [step_worker_some fs s i pc h]
    exact runWorkerStep_flag fs s.members pc

theorem step_worker_skanner (fs : FileSystem) (s : State) (i : Nat) :
    (step fs s (.worker i)).skanner = s.skanner := by
  cases h : s.workers.get? i with
  | none => rw [step_worker_none fs s i h]
  | some pc => rw [step_worker_some fs s i pc h]

theorem step_skanner_workers (fs : FileSystem) (s : State) :
    (step fs s .skanner).workers = s.workers := rfl

theorem step_skanner_finished (fs : FileSystem) (s : State) (h : s.skanner = .finished) :
    step fs s .skanner = s := by
  obtain ⟨m, sk, ws⟩ := s
  simp only at h
  subst h
  rfl

theorem start_flagAgrees (m : Members) (n : Nat) (contents : List Entry) :
    FlagAgrees (start m n contents) := by
  simp [FlagAgrees, start, reset]

theorem step_flagAgrees (fs : FileSystem) (s : State) (t : Tid) (h : FlagAgrees s) :
    FlagAgrees (step fs s t) := by
  cases t with
  | worker i =>
    unfold FlagAgrees
    rw [step_worker_flag, step_worker_skanner]
    exact h
  | skanner =>
    obtain ⟨m, sk, ws⟩ := s
    cases sk with
    | finished => exact h
    | iterating rest =>
      cases rest with
      | nil => simp [FlagAgrees, step, scanDirectoryTreeStep]
      | cons e rest =>
        have hf : m.scanning_finished = false := by
          cases hm : m.scanning_finished with
          | false => rfl
          | true => exact absurd (h.mp hm) (by simp)
        cases he : e.is_regular_file <;>
          simp [FlagAgrees, step, scanDirectoryTreeStep, he, hf]

theorem run_flagAgrees (fs : FileSystem) (sched : List Tid) (s : State) (h : FlagAgrees s) :
    FlagAgrees (run fs s sched) := by
  induction sched generalizing s with
  | nil => exact h
  | cons t rest ih => exact ih (step fs s t) (step_flagAgrees fs s t h)

theorem step_keeps_finished (fs : FileSystem) (s : State) (t : Tid)
    (h : s.skanner = .finished) : (step fs s t).skanner = .finished := by
  cases t with
  | worker i => rw [step_worker_skanner]; exact h
  | skanner => rw [step_skanner_finished fs s h]; exact h

theorem run_keeps_finished (fs : FileSystem) (sched : List Tid) (s : State)
    (h : s.skanner = .finished) : (run fs s sched).skanner = .finished := by
  induction sched generalizing s with
  | nil => exact h
  | cons t rest ih => exact ih (step fs s t) (step_keeps_finished fs s t h)

theorem countSteps_putsPath_finished (fs : FileSystem) (sched : List Tid) (s : State)
    (h : s.skanner = .finished) : countSteps fs putsPath s sched = 0 := by
  induction sched generalizing s with
  | nil => rfl
  | cons t rest ih =>
    have hp : putsPath s t = false := by
      cases t <;> simp [putsPath, h]
    simp [countSteps, hp, ih (step fs s t) (step_keeps_finished fs s t h)]

theorem countSteps_writesFlag (fs : FileSystem) (sched : List Tid) (s : State) :
    countSteps fs writesFlag s sched
      = if s.skanner = .finished then 0
        else if (run fs s sched).skanner = .finished then 1 else 0 := by
  induction sched generalizing s with
  | nil =>
    by_cases h : s.skanner = .finished <;> simp [countSteps, run_nil, h]
  | cons t rest ih =>
    rw [countSteps, ih, run_cons]
    cases t with
    | worker i =>
      have hw : writesFlag s (.worker i) = false := by simp [writesFlag]
      rw [hw, step_worker_skanner]
      simp
    | skanner =>
      obtain ⟨m, sk, ws⟩ := s
      cases sk with
      | finished =>
        simp [writesFlag, step, scanDirectoryTreeStep]
      | iterating ents =>
        cases ents with
        | nil =>
          have hfin : (step fs { members := m, skanner := .iterating [], workers := ws }
              .skanner).skanner = .finished := rfl
          simp [writesFlag, hfin, run_keeps_finished fs rest _ hfin]
        | cons e ents =>
          cases he : e.is_regular_file <;>
            simp [writesFlag, step, scanDirectoryTreeStep, he]

/-! ## Pipeline: flag and worker loop claims -/

/-- C11: within one `countLines` call the flag is false after `reset`; along
every schedule the number of writes of `scanning_finished` is 1 when the flag
is true and 0 when it is false (so exactly 1 once all threads are joined); and
from every reached state in which the flag is true it stays true and the
scanner performs no further `put`. -/
theorem closed_flag_invariant (fs : FileSystem) (m : Members) (n : Nat)
    (contents : List Entry) (sched more : List Tid) :
    (start m n contents).members.scanning_finished = false
      ∧ countSteps fs writesFlag (start m n contents) sched
          = (if (run fs (start m n contents) sched).members.scanning_finished then 1 else 0)
      ∧ (joined (run fs (start m n contents) sched) = true →
          countSteps fs writesFlag (start m n contents) sched = 1)
      ∧ ((run fs (start m n contents) sched).members.scanning_finished = true →
          (run fs (start m n contents) (sched ++ more)).members.scanning_finished = true
            ∧ countSteps fs putsPath (run fs (start m n contents) sched) more = 0) := by
  have hagree := run_flagAgrees fs sched _ (start_flagAgrees m n contents)
  have hstart : ¬ (start m n contents).skanner = .finished := by simp [start]
  have hcount := countSteps_writesFlag fs sched (start m n contents)
  rw [if_neg hstart] at hcount
  refine ⟨rfl, ?_, ?_, ?_⟩
  · rw [hcount]
    by_cases hfin : (run fs (start m n contents) sched).skanner = .finished
    · rw [if_pos hfin, hagree.mpr hfin]
      rfl
    · have hfl : (run fs (start m n contents) sched).members.scanning_finished = false := by
        cases hb : (run fs (start m n contents) sched).members.scanning_finished with
        | false => rfl
        | true => exact absurd (hagree.mp hb) hfin
      rw [if_neg hfin, hfl]
      rfl
  · intro hj
    have hfin : (run fs (start m n contents) sched).skanner = .finished := by
      simp only [joined, Bool.and_eq_true, beq_iff_eq] at hj
      exact hj.1
    rw [hcount, if_pos hfin]
  · intro hfl
    have hfin := hagree.mp hfl
    constructor
    · rw [run_append]
      have hagree2 := run_flagAgrees fs more _ hagree
      exact hagree2.mpr (run_keeps_finished fs more _ hfin)
    · exact countSteps_putsPath_finished fs more _ hfin

/-- C15: a worker's step ends in `exited` only from `exited` itself or from the
read of `scanning_finished` (reached only after `take` returned `nullopt`)
returning true; that read returning false changes nothing and leads back to
`take`; `take` on an empty queue changes nothing and leads to the flag read;
`take` returning a path leads to the add, and the add leads back to `take`. -/
theorem runWorker_exit_condition (fs : FileSystem) (m : Members) :
    (∀ pc : WorkerPc, (runWorkerStep fs m pc).2 = .exited
        ↔ pc = .exited ∨ (pc = .atFlag ∧ m.scanning_finished = true))
      ∧ runWorkerStep fs m .atFlag = (m, if m.scanning_finished then .exited else .atTake)
      ∧ runWorkerStep fs m .atTake
          = (match m.storage.files_to_process with
            | [] => (m, .atFlag)
            | p :: q =>
              ({ storage := { files_to_process := q }
                 line_count := m.line_count
                 scanning_finished := m.scanning_finished }, .atAdd p))
      ∧ ∀ file : Path, (runWorkerStep fs m (.atAdd file)).2 = .atTake := by
  refine ⟨?_, ?_, ?_, fun _ => rfl⟩
  · intro pc
    cases pc with
    | atTake =>
      cases hq : m.storage.files_to_process with
      | nil => simp [runWorkerStep_atTake_nil fs m hq]
      | cons p q => simp [runWorkerStep_atTake_cons fs m p q hq]
    | atAdd file => simp [runWorkerStep]
    | atFlag => cases hf : m.scanning_finished <;> simp [runWorkerStep, hf]
    | exited => simp [runWorkerStep]
  · cases hf : m.scanning_finished <;> simp [runWorkerStep, hf]
  · cases hq : m.storage.files_to_process with
    | nil => exact runWorkerStep_atTake_nil fs m hq
    | cons p q => exact runWorkerStep_atTake_cons fs m p q hq

/-! ## Pipeline: accounting of counts -/

theorem sumOfCounts_nil (fs : FileSystem) : sumOfCounts fs [] = 0 := rfl

theorem sumOfCounts_cons (fs : FileSystem) (p : Path) (q : List Path) :
    sumOfCounts fs (p :: q) = countLinesInFile (fs p) + sumOfCounts fs q := by
  simp [sumOfCounts]

theorem sumOfCounts_append (fs : FileSystem) (a b : List Path) :
    sumOfCounts fs (a ++ b) = sumOfCounts fs a + sumOfCounts fs b := by
  simp [sumOfCounts]

theorem regularPaths_nil : regularPaths [] = [] := rfl

theorem regularPaths_cons_regular (e : DirEntry) (rest : List DirEntry)
    (h : e.is_regular_file = true) :
    regularPaths (e :: rest) = e.path :: regularPaths rest := by
  simp [regularPaths, h]

theorem regularPaths_cons_other (e : DirEntry) (rest : List DirEntry)
    (h : e.is_regular_file = false) :
    regularPaths (e :: rest) = regularPaths rest := by
  simp [regularPaths, h]

theorem discovered_eq (contents : List Entry) :
    discovered contents = regularPaths (walkAll contents) := rfl

theorem pendingSum_eq (fs : FileSystem) (s : State) :
    pendingSum fs s = sumOfCounts fs s.members.storage.files_to_process
      + pendingWorkers fs s.workers + sumOfCounts fs (regularPaths s.skanner.rest) := rfl

theorem pendingWorkers_set (fs : FileSystem) (ws : List WorkerPc) (i : Nat)
    (pc pc2 : WorkerPc) (h : ws.get? i = some pc) :
    pendingWorkers fs (ws.set i pc2) + pc.pending fs = pendingWorkers fs ws + pc2.pending fs := by
  induction ws generalizing i with
  | nil => simp at h
  | cons w ws ih =>
    cases i with
    | zero =>
      simp only [List.get?_cons_zero, Option.some.injEq] at h
      subst h
      simp only [pendingWorkers, List.set_cons_zero, List.map_cons, List.sum_cons]
      omega
    | succ i =>
      simp only [List.get?_cons_succ] at h
      have h2 := ih i h
      simp only [pendingWorkers, List.set_cons_succ, List.map_cons, List.sum_cons] at h2 ⊢
      omega

theorem pendingWorkers_replicate_atTake (fs : FileSystem) (n : Nat) :
    pendingWorkers fs (List.replicate n .atTake) = 0 := by
  induction n with
  | zero => rfl
  | succ n ih =>
    simp only [pendingWorkers, List.replicate_succ, List.map_cons, List.sum_cons] at ih ⊢
    rw [ih]
    rfl

/-- Each step either leaves `line_count` and the pending counts as they are, or
moves a count `c` from the pending counts into `line_count`. -/
theorem step_accounts (fs : FileSystem) (s : State) (t : Tid) :
    (pendingSum fs (step fs s t) = pendingSum fs s
        ∧ (step fs s t).members.line_count = s.members.line_count)
      ∨ ∃ c, pendingSum fs s = pendingSum fs (step fs s t) + c
          ∧ (step fs s t).members.line_count = (s.members.line_count + c) % UINT64_SIZE := by
  cases t with
  | skanner =>
    left
    obtain ⟨⟨⟨q⟩, lc, fl⟩, sk, ws⟩ := s
    cases sk with
    | finished => exact ⟨rfl, rfl⟩
    | iterating ents =>
      cases ents with
      | nil => exact ⟨rfl, rfl⟩
      | cons e ents =>
        cases he : e.is_regular_file with
        | false =>
          simp [pendingSum_eq, step, scanDirectoryTreeStep, he, ScannerPc.rest,
            regularPaths_cons_other e ents he]
        | true =>
          simp [pendingSum_eq, step, scanDirectoryTreeStep, he, ScannerPc.rest,
            regularPaths_cons_regular e ents he, SharedStorage.put, dequePushBack,
            sumOfCounts_append, sumOfCounts_cons, sumOfCounts_nil]
          omega
  | worker i =>
    cases hget : s.workers.get? i with
    | none =>
      left
      rw [step_worker_none fs s i hget]
      exact ⟨rfl, rfl⟩
    | some pc =>
      rw [step_worker_some fs s i pc hget]
      cases pc with
      | atTake =>
        left
        cases hq : s.members.storage.files_to_process with
        | nil =>
          rw [runWorkerStep_atTake_nil fs s.members hq]
          have h := pendingWorkers_set fs s.workers i .atTake .atFlag hget
          simp only [WorkerPc.pending] at h
          simp only [pendingSum_eq]
          constructor
          · omega
          · trivial
        | cons p q =>
          rw [runWorkerStep_atTake_cons fs s.members p q hq]
          have h := pendingWorkers_set fs s.workers i .atTake (.atAdd p) hget
          simp only [WorkerPc.pending] at h
          simp only [pendingSum_eq, hq, sumOfCounts_cons]
          constructor
          · omega
          · trivial
      | atAdd file =>
        right
        refine ⟨countLinesInFile (fs file), ?_, rfl⟩
        have h := pendingWorkers_set fs s.workers i (.atAdd file) .atTake hget
        simp only [WorkerPc.pending] at h
        simp only [pendingSum_eq, runWorkerStep]
        omega
      | atFlag =>
        left
        have h := pendingWorkers_set fs s.workers i .atFlag
        cases hf : s.members.scanning_finished with
        | false =>
          have h2 := h .atTake hget
          simp only [WorkerPc.pending] at h2
          simp only [pendingSum_eq, runWorkerStep, hf]
          constructor
          · simp only [Bool.false_eq_true, if_false]
            omega
          · simp
        | true =>
          have h2 := h .exited hget
          simp only [WorkerPc.pending] at h2
          simp only [pendingSum_eq, runWorkerStep, hf]
          constructor
          · simp only [if_true]
            omega
          · simp
      | exited =>
        left
        have h := pendingWorkers_set fs s.workers i .exited .exited hget
        simp only [pendingSum_eq, runWorkerStep]
        constructor
        · omega
        · trivial

theorem step_conserved (fs : FileSystem) (total : Nat) (s : State) (t : Tid)
    (h : Conserved fs total s) : Conserved fs total (step fs s t) := by
  obtain ⟨hle, hlc⟩ := h
  rcases step_accounts fs s t with ⟨hp, hl⟩ | ⟨c, hp, hl⟩
  · exact ⟨by omega, by rw [hl, hp, hlc]⟩
  · refine ⟨by omega, ?_⟩
    rw [hl, hlc, Nat.mod_add_mod]
    congr 1
    omega

theorem run_conserved (fs : FileSystem) (total : Nat) (sched : List Tid) (s : State)
    (h : Conserved fs total s) : Conserved fs total (run fs s sched) := by
  induction sched generalizing s with
  | nil => exact h
  | cons t rest ih => exact ih (step fs s t) (step_conserved fs total s t h)

theorem start_pendingSum (fs : FileSystem) (m : Members) (n : Nat) (contents : List Entry) :
    pendingSum fs (start m n contents)
      = sumOfCounts fs (m.storage.files_to_process ++ discovered contents) := by
  rw [pendingSum_eq, sumOfCounts_append]
  simp only [start, reset, ScannerPc.rest, pendingWorkers_replicate_atTake, discovered_eq]
  omega

theorem start_conserved (fs : FileSystem) (m : Members) (n : Nat) (contents : List Entry) :
    Conserved fs (sumOfCounts fs (m.storage.files_to_process ++ discovered contents))
      (start m n contents) := by
  constructor
  · rw [start_pendingSum]
  · rw [start_pendingSum, Nat.sub_self]
    rfl

theorem joined_pendingSum (fs : FileSystem) (s : State) (h : joined s = true) :
    pendingSum fs s = sumOfCounts fs s.members.storage.files_to_process := by
  simp only [joined, Bool.and_eq_true, beq_iff_eq, List.all_eq_true] at h
  obtain ⟨hsk, hws⟩ := h
  have hw : pendingWorkers fs s.workers = 0 := by
    have : ∀ ws : List WorkerPc, (∀ pc ∈ ws, pc = .exited) → pendingWorkers fs ws = 0 := by
      intro ws
      induction ws with
      | nil => intro _; rfl
      | cons w ws ih =>
        intro hall
        have hw := hall w (List.mem_cons_self w ws)
        have hrest := ih (fun pc hpc => hall pc (List.mem_cons_of_mem w hpc))
        simp only [pendingWorkers, List.map_cons, List.sum_cons] at hrest ⊢
        rw [hrest, hw]
        rfl
    exact this s.workers hws
  rw [pendingSum_eq, hw, hsk]
  simp [ScannerPc.rest, regularPaths_nil, sumOfCounts_nil]

theorem step_workers_length (fs : FileSystem) (s : State) (t : Tid) :
    (step fs s t).workers.length = s.workers.length := by
  cases t with
  | skanner => rfl
  | worker i =>
    cases hget : s.workers.get? i with
    | none => rw [step_worker_none fs s i hget]
    | some pc =>
      rw [step_worker_some fs s i pc hget]
      simp

theorem run_workers_length (fs : FileSystem) (sched : List Tid) (s : State) :
    (run fs s sched).workers.length = s.workers.length := by
  induction sched generalizing s with
  | nil => rfl
  | cons t rest ih => rw [run_cons, ih, step_workers_length]

theorem step_untaken_suffix (fs : FileSystem) (s : State) (t : Tid) :
    untaken (step fs s t) <:+ untaken s := by
  cases t with
  | skanner =>
    obtain ⟨⟨⟨q⟩, lc, fl⟩, sk, ws⟩ := s
    cases sk with
    | finished => exact List.suffix_refl _
    | iterating ents =>
      cases ents with
      | nil => exact List.suffix_refl _
      | cons e ents =>
        cases he : e.is_regular_file with
        | false =>
          simp only [untaken, step, scanDirectoryTreeStep, he, ScannerPc.rest,
            regularPaths_cons_other e ents he]
          exact List.suffix_refl _
        | true =>
          simp only [untaken, step, scanDirectoryTreeStep, he, ScannerPc.rest,
            regularPaths_cons_regular e ents he, SharedStorage.put, dequePushBack]
          simp
  | worker i =>
    cases hget : s.workers.get? i with
    | none =>
      rw [step_worker_none fs s i hget]
    | some pc =>
      rw [step_worker_some fs s i pc hget]
      cases pc with
      | atTake =>
        cases hq : s.members.storage.files_to_process with
        | nil =>
          rw [runWorkerStep_atTake_nil fs s.members hq]
          exact List.suffix_refl _
        | cons p q =>
          rw [runWorkerStep_atTake_cons fs s.members p q hq]
          simp only [untaken, hq, List.cons_append]
          exact List.suffix_cons _ _
      | atAdd file => exact List.suffix_refl _
      | atFlag =>
        cases hf : s.members.scanning_finished <;>
          simp only [untaken, runWorkerStep, hf] <;> exact List.suffix_refl _
      | exited => exact List.suffix_refl _

/-- A worker comes to have seen an empty `take` only by a `take` that returns
`nullopt`. -/
theorem sawEmpty_step (fs : FileSystem) (s : State) (t : Tid)
    (h : someWorkerSawEmpty (step fs s t)) :
    someWorkerSawEmpty s ∨ takesNothing s t = true := by
  cases t with
  | skanner => exact Or.inl h
  | worker i =>
    cases hget : s.workers.get? i with
    | none =>
      rw [step_worker_none fs s i hget] at h
      exact Or.inl h
    | some pc =>
      rw [step_worker_some fs s i pc hget] at h
      obtain ⟨pc2, hmem, hpc2⟩ := h
      simp only at hmem
      rcases List.mem_or_eq_of_mem_set hmem with hold | hnew
      · exact Or.inl ⟨pc2, hold, hpc2⟩
      · have hin : pc ∈ s.workers := List.get?_mem hget
        cases pc with
        | atTake =>
          cases hq : s.members.storage.files_to_process with
          | nil =>
            right
            simp only [takesNothing, hget, hq, dequeEmpty]
            rfl
          | cons p q =>
            rw [runWorkerStep_atTake_cons fs s.members p q hq] at hnew
            simp only at hnew
            subst hnew
            simp at hpc2
        | atAdd file =>
          simp only [runWorkerStep] at hnew
          subst hnew
          simp at hpc2
        | atFlag => exact Or.inl ⟨.atFlag, hin, Or.inl rfl⟩
        | exited => exact Or.inl ⟨.exited, hin, Or.inr rfl⟩

theorem takesNothing_queue (s : State) (t : Tid) (h : takesNothing s t = true) :
    s.members.storage.files_to_process = [] := by
  cases t with
  | skanner => simp [takesNothing] at h
  | worker i =>
    simp only [takesNothing, Bool.and_eq_true] at h
    cases hq : s.members.storage.files_to_process with
    | nil => rfl
    | cons p q =>
      rw [hq] at h
      simp [dequeEmpty] at h

theorem step_drained (fs : FileSystem) (s : State) (t : Tid) (h : drained s) :
    drained (step fs s t) := by
  obtain ⟨hsk, hq⟩ := h
  refine ⟨step_keeps_finished fs s t hsk, ?_⟩
  have hsuf := step_untaken_suffix fs s t
  have hrest : regularPaths (step fs s t).skanner.rest = [] := by
    rw [step_keeps_finished fs s t hsk]
    rfl
  have hu : untaken s = [] := by
    simp [untaken, hq, hsk, ScannerPc.rest, regularPaths_nil]
  rw [hu] at hsuf
  have := List.eq_nil_of_suffix_nil hsuf
  simp only [untaken, List.append_eq_nil] at this
  exact this.1

theorem step_sawEmpty_drained (fs : FileSystem) (s : State) (t : Tid)
    (hag : FlagAgrees s) (hinv : someWorkerSawEmpty s → drained s)
    (hflag : takesNothing s t = true → s.members.scanning_finished = true) :
    someWorkerSawEmpty (step fs s t) → drained (step fs s t) := by
  intro hsaw
  rcases sawEmpty_step fs s t hsaw with hold | htake
  · exact step_drained fs s t (hinv hold)
  · exact step_drained fs s t ⟨hag.mp (hflag htake), takesNothing_queue s t htake⟩

theorem run_sawEmpty_drained (fs : FileSystem) (sched : List Tid) (s : State)
    (hag : FlagAgrees s) (hinv : someWorkerSawEmpty s → drained s)
    (hff : flagFirst fs s sched = true) :
    someWorkerSawEmpty (run fs s sched) → drained (run fs s sched) := by
  induction sched generalizing s with
  | nil => exact hinv
  | cons t rest ih =>
    simp only [flagFirst, Bool.and_eq_true, Bool.or_eq_true, Bool.not_eq_true'] at hff
    obtain ⟨hnow, hlater⟩ := hff
    have hflag : takesNothing s t = true → s.members.scanning_finished = true := by
      intro ht
      rcases hnow with hno | hyes
      · rw [ht] at hno
        exact absurd hno (by simp)
      · exact hyes
    exact ih (step fs s t) (step_flagAgrees fs s t hag)
      (step_sawEmpty_drained fs s t hag hinv hflag) hlater

theorem start_not_sawEmpty (m : Members) (n : Nat) (contents : List Entry) :
    ¬ someWorkerSawEmpty (start m n contents) := by
  rintro ⟨pc, hmem, hpc⟩
  simp only [start] at hmem
  have := List.eq_of_mem_replicate hmem
  subst this
  simp at hpc

theorem joined_sawEmpty (s : State) (hn : 1 ≤ s.workers.length) (hj : joined s = true) :
    someWorkerSawEmpty s := by
  simp only [joined, Bool.and_eq_true, beq_iff_eq, List.all_eq_true] at hj
  cases hws : s.workers with
  | nil => rw [hws] at hn; simp at hn
  | cons w ws =>
    have hw : w ∈ s.workers := by rw [hws]; exact List.mem_cons_self w ws
    exact ⟨w, hw, Or.inr (hj.2 w hw)⟩

theorem joined_untaken (s : State) (hj : joined s = true) :
    untaken s = s.members.storage.files_to_process := by
  simp only [joined, Bool.and_eq_true, beq_iff_eq] at hj
  simp [untaken, hj.1, ScannerPc.rest, regularPaths_nil]

theorem start_workers_length (m : Members) (n : Nat) (contents : List Entry) :
    (start m n contents).workers.length = n := by
  simp [start]

/-- In a joined run with at least one worker under a schedule in which no `take`
returns `nullopt` before the flag is set, the queue ends empty. -/
theorem flagFirst_joined_queue (fs : FileSystem) (m : Members) (n : Nat)
    (contents : List Entry) (sched : List Tid) (hn : 1 ≤ n)
    (hff : flagFirst fs (start m n contents) sched = true)
    (hj : joined (run fs (start m n contents) sched) = true) :
    (run fs (start m n contents) sched).members.storage.files_to_process = [] := by
  have hlen : 1 ≤ (run fs (start m n contents) sched).workers.length := by
    rw [run_workers_length, start_workers_length]
    exact hn
  have hsaw := joined_sawEmpty _ hlen hj
  have hd := run_sawEmpty_drained fs sched (start m n contents) (start_flagAgrees m n contents)
    (fun h => absurd h (start_not_sawEmpty m n contents)) hff hsaw
  exact hd.2

/-- The value `countLines` returns from a joined run: the total of the counts
of the paths queued at the start and discovered, less the counts of the paths
still queued, modulo `2 ^ 64`. -/
theorem joined_line_count (fs : FileSystem) (m : Members) (n : Nat)
    (contents : List Entry) (sched : List Tid)
    (hj : joined (run fs (start m n contents) sched) = true) :
    (run fs (start m n contents) sched).members.line_count
      = (sumOfCounts fs (m.storage.files_to_process ++ discovered contents)
          - sumOfCounts fs (run fs (start m n contents) sched).members.storage.files_to_process)
        % UINT64_SIZE := by
  have hc := run_conserved fs _ sched _ (start_conserved fs m n contents)
  rw [← joined_pendingSum fs _ hj]
  exact hc.2

theorem flagFirst_append (fs : FileSystem) (a b : List Tid) (s : State) :
    flagFirst fs s (a ++ b) = (flagFirst fs s a && flagFirst fs (run fs s a) b) := by
  induction a generalizing s with
  | nil => simp [flagFirst, run_nil]
  | cons t rest ih =>
    rw [List.cons_append, flagFirst, flagFirst, ih, run_cons, Bool.and_assoc]

theorem get?_set_self (ws : List WorkerPc) (i : Nat) (pc pc2 : WorkerPc)
    (h : ws.get? i = some pc) : (ws.set i pc2).get? i = some pc2 := by
  induction ws generalizing i with
  | nil => simp at h
  | cons w ws ih =>
    cases i with
    | zero => rfl
    | succ i =>
      simp only [List.get?_cons_succ] at h
      simp only [List.set_cons_succ, List.get?_cons_succ]
      exact ih i h

theorem set_set_self (ws : List WorkerPc) (i : Nat) (pc pc2 : WorkerPc) :
    (ws.set i pc).set i pc2 = ws.set i pc2 := by
  induction ws generalizing i with
  | nil => rfl
  | cons w ws ih =>
    cases i with
    | zero => rfl
    | succ i =>
      simp only [List.set_cons_succ]
      rw [ih]

/-- The scanner, run alone, puts every regular file and sets the flag. -/
theorem run_scanner_alone (fs : FileSystem) (ents : List DirEntry) (q : List Path)
    (lc : Nat) (fl : Bool) (ws : List WorkerPc) :
    run fs { members := { storage := { files_to_process := q }
                          line_count := lc, scanning_finished := fl }
             skanner := .iterating ents, workers := ws }
        (List.replicate (ents.length + 1) .skanner)
      = { members := { storage := { files_to_process := q ++ regularPaths ents }
                       line_count := lc, scanning_finished := true }
          skanner := .finished, workers := ws } := by
  induction ents generalizing q with
  | nil =>
    simp [run, step, scanDirectoryTreeStep, regularPaths_nil]
  | cons e ents ih =>
    rw [List.length_cons, List.replicate_succ, run_cons]
    cases he : e.is_regular_file with
    | false =>
      have hstep : step fs { members := { storage := { files_to_process := q }
                                          line_count := lc, scanning_finished := fl }
                             skanner := .iterating (e :: ents), workers := ws } .skanner
          = { members := { storage := { files_to_process := q }
                           line_count := lc, scanning_finished := fl }
              skanner := .iterating ents, workers := ws } := by
        simp [step, scanDirectoryTreeStep, he]
      rw [hstep, ih q, regularPaths_cons_other e ents he]
    | true =>
      have hstep : step fs { members := { storage := { files_to_process := q }
                                          line_count := lc, scanning_finished := fl }
                             skanner := .iterating (e :: ents), workers := ws } .skanner
          = { members := { storage := { files_to_process := q ++ [e.path] }
                           line_count := lc, scanning_finished := fl }
              skanner := .iterating ents, workers := ws } := by
        simp [step, scanDirectoryTreeStep, he, SharedStorage.put, dequePushBack]
      rw [hstep, ih (q ++ [e.path]), regularPaths_cons_regular e ents he]
      simp

theorem flagFirst_scanner_alone (fs : FileSystem) (k : Nat) (s : State) :
    flagFirst fs s (List.replicate k .skanner) = true := by
  induction k generalizing s with
  | zero => rfl
  | succ k ih =>
    simp [List.replicate_succ, flagFirst, takesNothing, ih]

/-- One worker, run alone once the flag is set, empties the queue and leaves
its loop. -/
theorem worker_drains (fs : FileSystem) (i : Nat) (q : List Path) (lc : Nat)
    (ws : List WorkerPc) (hget : ws.get? i = some .atTake) :
    ∃ sched lc2,
      flagFirst fs { members := { storage := { files_to_process := q }
                                  line_count := lc, scanning_finished := true }
                     skanner := .finished, workers := ws } sched = true
      ∧ run fs { members := { storage := { files_to_process := q }
                              line_count := lc, scanning_finished := true }
                 skanner := .finished, workers := ws } sched
          = { members := { storage := { files_to_process := [] }
                           line_count := lc2, scanning_finished := true }
              skanner := .finished, workers := ws.set i .exited } := by
  induction q generalizing lc ws with
  | nil =>
    refine ⟨[.worker i, .worker i], lc, ?_, ?_⟩
    · simp [flagFirst, step_worker_flag]
    · rw [run_cons, step_worker_some fs _ i .atTake hget, runWorkerStep_atTake_nil fs _ rfl,
        run_cons, step_worker_some fs _ i .atFlag (get?_set_self ws i _ _ hget)]
      simp [runWorkerStep, set_set_self, run_nil]
  | cons p q ih =>
    have hget2 : (ws.set i WorkerPc.atTake).get? i = some .atTake :=
      get?_set_self ws i _ _ hget
    obtain ⟨sched, lc2, hff, hrun⟩ :=
      ih ((lc + countLinesInFile (fs p)) % UINT64_SIZE) (ws.set i .atTake) hget2
    refine ⟨.worker i :: .worker i :: sched, lc2, ?_, ?_⟩
    · simp only [flagFirst, Bool.or_true, Bool.true_and]
      rw [step_worker_some fs _ i .atTake hget, runWorkerStep_atTake_cons fs _ p q rfl,
        step_worker_some fs _ i (.atAdd p) (get?_set_self ws i _ _ hget)]
      simp only [runWorkerStep, set_set_self, Bool.or_true, Bool.true_and]
      exact hff
    · rw [run_cons, step_worker_some fs _ i .atTake hget,
        runWorkerStep_atTake_cons fs _ p q rfl, run_cons,
        step_worker_some fs _ i (.atAdd p) (get?_set_self ws i _ _ hget)]
      simp only [runWorkerStep, set_set_self]
      rw [hrun, set_set_self]

theorem get?_append_length (pre post : List WorkerPc) (pc : WorkerPc) :
    (pre ++ pc :: post).get? pre.length = some pc := by
  induction pre with
  | nil => rfl
  | cons w pre ih => exact ih

theorem set_append_length (pre post : List WorkerPc) (pc pc2 : WorkerPc) :
    (pre ++ pc :: post).set pre.length pc2 = pre ++ pc2 :: post := by
  induction pre with
  | nil => rfl
  | cons w pre ih => simp

/-- Once the flag is set and the queue is empty, the workers still at `take`
can leave their loops one after the other. -/
theorem workers_all_exit (fs : FileSystem) (k : Nat) (pre : List WorkerPc) (lc : Nat) :
    ∃ sched lc2,
      flagFirst fs { members := { storage := { files_to_process := [] }
                                  line_count := lc, scanning_finished := true }
                     skanner := .finished
                     workers := pre ++ List.replicate k .atTake } sched = true
      ∧ run fs { members := { storage := { files_to_process := [] }
                              line_count := lc, scanning_finished := true }
                 skanner := .finished
                 workers := pre ++ List.replicate k .atTake } sched
          = { members := { storage := { files_to_process := [] }
                           line_count := lc2, scanning_finished := true }
              skanner := .finished
              workers := pre ++ List.replicate k .exited } := by
  induction k generalizing pre lc with
  | zero => exact ⟨[], lc, rfl, rfl⟩
  | succ k ih =>
    obtain ⟨sched1, lc1, hff1, hrun1⟩ := worker_drains fs pre.length [] lc
      (pre ++ .atTake :: List.replicate k .atTake) (get?_append_length pre _ _)
    rw [set_append_length] at hrun1
    obtain ⟨sched2, lc2, hff2, hrun2⟩ := ih (pre ++ [.exited]) lc1
    simp only [List.append_assoc, List.singleton_append] at hff2 hrun2
    refine ⟨sched1 ++ sched2, lc2, ?_, ?_⟩
    · rw [flagFirst_append, List.replicate_succ, hff1, hrun1, hff2]
      rfl
    · rw [run_append, List.replicate_succ, hrun1, hrun2, List.replicate_succ]

theorem joined_of_all_exited (m : Members) (k : Nat) :
    joined { members := m, skanner := .finished, workers := List.replicate k .exited }
      = true := by
  simp only [joined, Bool.and_eq_true, beq_iff_eq, List.all_eq_true, true_and]
  intro pc hpc
  exact List.eq_of_mem_replicate hpc

/-- For every object state, worker count and tree there is a schedule that
joins all threads and in which no `take` returns `nullopt` before the flag is
set: the scanner first, then the workers one after the other. -/
theorem exists_flagFirst_joined (fs : FileSystem) (m : Members) (n : Nat)
    (contents : List Entry) :
    ∃ sched, flagFirst fs (start m n contents) sched = true
      ∧ joined (run fs (start m n contents) sched) = true := by
  obtain ⟨⟨q⟩, lc, fl⟩ := m
  have hscan := run_scanner_alone fs (walkAll contents) q 0 false (List.replicate n .atTake)
  have hffscan := flagFirst_scanner_alone fs ((walkAll contents).length + 1)
    (start { storage := { files_to_process := q }, line_count := lc,
             scanning_finished := fl } n contents)
  cases n with
  | zero =>
    refine ⟨List.replicate ((walkAll contents).length + 1) .skanner, hffscan, ?_⟩
    simp only [start, reset]
    rw [hscan]
    exact joined_of_all_exited _ 0
  | succ k =>
    obtain ⟨sched1, lc1, hff1, hrun1⟩ :=
      worker_drains fs 0 (q ++ regularPaths (walkAll contents)) 0
        (List.replicate (k + 1) .atTake) rfl
    obtain ⟨sched2, lc2, hff2, hrun2⟩ := workers_all_exit fs k [.exited] lc1
    have hset : (List.replicate (k + 1) WorkerPc.atTake).set 0 .exited
        = [.exited] ++ List.replicate k .atTake := rfl
    rw [hset] at hrun1
    refine ⟨List.replicate ((walkAll contents).length + 1) .skanner ++ (sched1 ++ sched2),
      ?_, ?_⟩
    · rw [flagFirst_append, hffscan, Bool.true_and]
      simp only [start, reset]
      rw [hscan, flagFirst_append, hff1, hrun1, hff2]
      rfl
    · simp only [start, reset]
      rw [run_append, hscan, run_append, hrun1, hrun2]
      exact joined_of_all_exited _ (k + 1)

/-! ## Pipeline: no workers -/

theorem step_no_workers (fs : FileSystem) (s : State) (t : Tid) (h : s.workers = []) :
    (step fs s t).workers = []
      ∧ (step fs s t).members.line_count = s.members.line_count
      ∧ untaken (step fs s t) = untaken s := by
  cases t with
  | worker i =>
    have hget : s.workers.get? i = none := by rw [h]; rfl
    rw [step_worker_none fs s i hget]
    exact ⟨h, rfl, rfl⟩
  | skanner =>
    obtain ⟨⟨⟨q⟩, lc, fl⟩, sk, ws⟩ := s
    simp only at h
    subst h
    cases sk with
    | finished => exact ⟨rfl, rfl, rfl⟩
    | iterating ents =>
      cases ents with
      | nil => exact ⟨rfl, rfl, rfl⟩
      | cons e ents =>
        cases he : e.is_regular_file with
        | false =>
          simp [untaken, step, scanDirectoryTreeStep, he, ScannerPc.rest,
            regularPaths_cons_other e ents he]
        | true =>
          simp [untaken, step, scanDirectoryTreeStep, he, ScannerPc.rest,
            regularPaths_cons_regular e ents he, SharedStorage.put, dequePushBack]

theorem run_no_workers (fs : FileSystem) (sched : List Tid) (s : State) (h : s.workers = []) :
    (run fs s sched).members.line_count = s.members.line_count
      ∧ untaken (run fs s sched) = untaken s := by
  induction sched generalizing s with
  | nil => exact ⟨rfl, rfl⟩
  | cons t rest ih =>
    obtain ⟨hw, hl, hu⟩ := step_no_workers fs s t h
    obtain ⟨hl2, hu2⟩ := ih (step fs s t) hw
    rw [run_cons]
    exact ⟨hl2.trans hl, hu2.trans hu⟩

theorem countLines_eq_some (fs : FileSystem) (m : Members) (n : Nat) (contents : List Entry)
    (sched : List Tid) (r : Nat) (h : countLines fs m n contents sched = some r) :
    joined (run fs (start m n contents) sched) = true
      ∧ (run fs (start m n contents) sched).members.line_count = r := by
  unfold countLines at h
  by_cases hj : joined (run fs (start m n contents) sched) = true
  · simp only [hj, if_true, Option.some.injEq] at h
    exact ⟨hj, h⟩
  · simp [hj] at h

theorem countLines_of_joined (fs : FileSystem) (m : Members) (n : Nat) (contents : List Entry)
    (sched : List Tid) (hj : joined (run fs (start m n contents) sched) = true) :
    countLines fs m n contents sched
      = some (run fs (start m n contents) sched).members.line_count := by
  unfold countLines
  simp only [hj, if_true]

/-! ## Pipeline: totals, claims -/

/-- C12 fails on the code: for the same tree (`root/a.txt`, counted as 3) the
run with one worker under `earlyTakeSchedule` returns 0 and the run with two
workers under `scannerFirstSchedule` returns 3. -/
theorem countLines_depends_on_schedule :
    countLines sampleFs Members.fresh 1 oneFileTree earlyTakeSchedule = some 0
      ∧ countLines sampleFs Members.fresh 2 oneFileTree scannerFirstSchedule = some 3 := by
  decide

/-- C13 fails on the code: on the same object and tree, the first call (under
`earlyTakeSchedule`) returns 0 and leaves `root/a.txt` queued, and the second
call (under `secondCallSchedule`) returns 6. -/
theorem countLines_twice_differs :
    countLines sampleFs Members.fresh 1 oneFileTree earlyTakeSchedule = some 0
      ∧ (membersAfter sampleFs Members.fresh 1 oneFileTree earlyTakeSchedule).storage
          = { files_to_process := ["root/a.txt"] }
      ∧ countLines sampleFs (membersAfter sampleFs Members.fresh 1 oneFileTree earlyTakeSchedule)
          1 oneFileTree secondCallSchedule = some 6 := by
  decide

/-- C14: for a root whose tree holds no regular file, every run of `countLines`
on a new object that joins its threads returns 0, whatever the worker count and
schedule, and some schedule does join them. -/
theorem countLines_no_regular_file (fs : FileSystem) (n : Nat) (contents : List Entry)
    (hnone : discovered contents = []) :
    (∀ sched r, countLines fs Members.fresh n contents sched = some r → r = 0)
      ∧ ∃ sched, countLines fs Members.fresh n contents sched = some 0 := by
  have hall : ∀ sched, joined (run fs (start Members.fresh n contents) sched) = true →
      (run fs (start Members.fresh n contents) sched).members.line_count = 0 := by
    intro sched hj
    rw [joined_line_count fs Members.fresh n contents sched hj, hnone]
    simp [Members.fresh, SharedStorage.empty, sumOfCounts_nil]
  constructor
  · intro sched r h
    obtain ⟨hj, hr⟩ := countLines_eq_some fs _ n contents sched r h
    rw [← hr]
    exact hall sched hj
  · obtain ⟨sched, _, hj⟩ := exists_flagFirst_joined fs Members.fresh n contents
    exact ⟨sched, by rw [countLines_of_joined fs _ n contents sched hj, hall sched hj]⟩

/-- Witness for C14: `noFileTree` holds directories and a socket only; with two
workers, one of which polls the empty queue while the scanner walks, the call
returns 0. -/
theorem countLines_no_regular_file_witness :
    discovered noFileTree = []
      ∧ countLines sampleFs Members.fresh 2 noFileTree pollingSchedule = some 0
      ∧ ((∀ sched r, countLines sampleFs Members.fresh 2 noFileTree sched = some r → r = 0)
        ∧ ∃ sched, countLines sampleFs Members.fresh 2 noFileTree sched = some 0) :=
  ⟨by decide, by decide, countLines_no_regular_file sampleFs 2 noFileTree (by decide)⟩

/-- C17: with worker count 0, every run of `countLines` on a new object that
joins returns 0 and leaves exactly the discovered paths in the queue, in
discovery order; and the scanner's own steps make such a run. -/
theorem countLines_zero_workers (fs : FileSystem) (contents : List Entry) :
    (∀ sched r, countLines fs Members.fresh 0 contents sched = some r →
        r = 0 ∧ (membersAfter fs Members.fresh 0 contents sched).storage.files_to_process
          = discovered contents)
      ∧ ∃ sched, countLines fs Members.fresh 0 contents sched = some 0 := by
  have hall : ∀ sched, joined (run fs (start Members.fresh 0 contents) sched) = true →
      (run fs (start Members.fresh 0 contents) sched).members.line_count = 0
        ∧ (run fs (start Members.fresh 0 contents) sched).members.storage.files_to_process
          = discovered contents := by
    intro sched hj
    obtain ⟨hl, hu⟩ := run_no_workers fs sched (start Members.fresh 0 contents) rfl
    rw [joined_untaken _ hj] at hu
    exact ⟨hl, hu⟩
  constructor
  · intro sched r h
    obtain ⟨hj, hr⟩ := countLines_eq_some fs _ 0 contents sched r h
    rw [← hr]
    exact hall sched hj
  · obtain ⟨sched, _, hj⟩ := exists_flagFirst_joined fs Members.fresh 0 contents
    exact ⟨sched, by rw [countLines_of_joined fs _ 0 contents sched hj, (hall sched hj).1]⟩

/-- C18: with at least one worker and a new object, every joined run in which
no `take` returns `nullopt` before `scanning_finished` is set ends with an
empty queue and returns the sum of `countLinesInFile` over the discovered
files modulo `2 ^ 64`; and such a run exists. -/
theorem countLines_flag_first (fs : FileSystem) (n : Nat) (contents : List Entry)
    (hn : 1 ≤ n) :
    (∀ sched, flagFirst fs (start Members.fresh n contents) sched = true →
        joined (run fs (start Members.fresh n contents) sched) = true →
        (membersAfter fs Members.fresh n contents sched).storage.files_to_process = []
          ∧ countLines fs Members.fresh n contents sched
              = some (sumOfCounts fs (discovered contents) % UINT64_SIZE))
      ∧ ∃ sched, flagFirst fs (start Members.fresh n contents) sched = true
          ∧ joined (run fs (start Members.fresh n contents) sched) = true := by
  refine ⟨?_, exists_flagFirst_joined fs Members.fresh n contents⟩
  intro sched hff hj
  have hq := flagFirst_joined_queue fs Members.fresh n contents sched hn hff hj
  refine ⟨hq, ?_⟩
  rw [countLines_of_joined fs _ n contents sched hj,
    joined_line_count fs Members.fresh n contents sched hj, hq]
  simp [Members.fresh, SharedStorage.empty, sumOfCounts_nil]

/-- Witness for C18: two workers on `twoFileTree` (two files counted as 3 each)
under `overlappingSchedule`, where a worker takes the first file while the
scanner is still walking: the queue ends empty and the call returns 6. -/
theorem countLines_flag_first_witness :
    1 ≤ 2
      ∧ flagFirst sampleFs (start Members.fresh 2 twoFileTree) overlappingSchedule = true
      ∧ joined (run sampleFs (start Members.fresh 2 twoFileTree) overlappingSchedule) = true
      ∧ sumOfCounts sampleFs (discovered twoFileTree) % UINT64_SIZE = 6
      ∧ (membersAfter sampleFs Members.fresh 2 twoFileTree
            overlappingSchedule).storage.files_to_process = []
      ∧ countLines sampleFs Members.fresh 2 twoFileTree overlappingSchedule
          = some (sumOfCounts sampleFs (discovered twoFileTree) % UINT64_SIZE) :=
  ⟨by decide, by decide, by decide, by decide,
    (countLines_flag_first sampleFs 2 twoFileTree (by decide)).1 overlappingSchedule
      (by decide) (by decide)⟩

end LineCounter
